import Mathlib

/-!
The request handler, the log entry formatter and the server lifecycle of
`cd-sample`.

A shallow embedding of `src/main.go` and of the parts of the Go standard
library it calls (`strings.Split`, `encoding/json`, `fmt`, `log`,
`net/http`, `errors`), followed by the properties of the specification.
-/

namespace CdSample

/-! ## Go strings -/

/-- One step of ranging over a Go string. A Go string is a byte sequence;
decoding it as UTF-8 cuts it, in exactly one way, into well-formed code
points and single bytes that belong to no well-formed encoding. The
functions below work on this decoded form, and positions count its
elements; for the ASCII separator and the ASCII keys of `main.go` this
agrees with the byte-wise functions of Go. -/
inductive GoRune where
  /-- A well-formed code point. -/
  | rune (c : Char)
  /-- A byte (0x80 or above) that is not part of a well-formed encoding. -/
  | stray (b : Nat)
  deriving DecidableEq, Repr

/-- A Go `string`. -/
abbrev GoString := List GoRune

/-- A Go string literal. -/
def lit (s : String) : GoString := s.data.map GoRune.rune

/-- Go `strings.Index(s, sep)`: the position of the first occurrence of
`sep` in `s`, `none` for Go's `-1`. -/
def strings.Index : GoString → GoString → Option Nat
  | [], sep => if sep = [] then some 0 else none
  | c :: s, sep =>
    if sep.isPrefixOf (c :: s) then some 0
    else (strings.Index s sep).map (· + 1)

/-- Go `strings.Count(s, sep)` for a non-empty `sep`: the number of
non-overlapping occurrences, counted by repeated `Index`. The fuel is
the length of `s`, which bounds the number of occurrences. -/
def strings.countLoop (sep : GoString) : Nat → GoString → Nat
  | 0, _ => 0
  | fuel + 1, s =>
    match strings.Index s sep with
    | none => 0
    | some m => strings.countLoop sep fuel (s.drop (m + sep.length)) + 1

/-- Go `strings.Count(s, sep)`; for the empty separator Go returns the
number of code points plus one. -/
def strings.Count (s sep : GoString) : Nat :=
  if sep = [] then s.length + 1 else strings.countLoop sep s.length s

/-- The loop of Go `genSplit`: `for i < n { m := Index(s, sep); if m < 0
{ break }; a[i] = s[:m]; s = s[m+len(sep):]; i++ }; a[i] = s`. The first
argument is `n - i`. -/
def strings.genSplitLoop (sep : GoString) : Nat → GoString → List GoString
  | 0, s => [s]
  | n + 1, s =>
    match strings.Index s sep with
    | none => [s]
    | some m => s.take m :: strings.genSplitLoop sep n (s.drop (m + sep.length))

/-- Go `strings.Split(s, sep)`, which is `genSplit(s, sep, 0, -1)`: with an
empty separator the string is exploded into its code points, otherwise
`n = Count(s, sep) + 1` slots are filled by the loop. -/
def strings.Split (s sep : GoString) : List GoString :=
  if sep = [] then s.map (fun r => [r])
  else strings.genSplitLoop sep (strings.Count s sep) s

/-! ## encoding/json -/

/-- Go `const hex = "0123456789abcdef"`, indexed at `n`. -/
def json.hex (n : Nat) : Char := "0123456789abcdef".data.getD n '0'

/-- Go `htmlSafeSet[b]` for an ASCII byte: every printable byte and DEL,
except the double quote, the backslash and the three HTML characters. -/
def json.htmlSafeSet (c : Char) : Bool :=
  decide (0x20 ≤ c.toNat) && decide (c.toNat < 0x80) &&
    !(c == '"' || c == '\\' || c == '<' || c == '>' || c == '&')

/-- What one iteration of the loop of Go `appendString` (with
`escapeHTML` set, as `json.Marshal` does) appends for the element it
consumes. -/
def json.appendRune : GoRune → GoString
  | .stray _ => lit "\\ufffd"
  | .rune c =>
    if c.toNat < 0x80 then
      if json.htmlSafeSet c then [.rune c]
      else if c = '\\' ∨ c = '"' then [.rune '\\', .rune c]
      else if c = '\x08' then lit "\\b"
      else if c = '\x0c' then lit "\\f"
      else if c = '\n' then lit "\\n"
      else if c = '\r' then lit "\\r"
      else if c = '\t' then lit "\\t"
      else lit "\\u00" ++ [.rune (json.hex (c.toNat / 16)), .rune (json.hex (c.toNat % 16))]
    else if c.toNat = 0x2028 ∨ c.toNat = 0x2029 then
      lit "\\u202" ++ [.rune (json.hex (c.toNat % 16))]
    else [.rune c]

/-- The text between the quotes written by Go `appendString`. -/
def json.escape : GoString → GoString
  | [] => []
  | r :: s => json.appendRune r ++ json.escape s

/-- Go `appendString(dst, src, true)`: the JSON string literal for `src`. -/
def json.appendString (src : GoString) : GoString :=
  .rune '"' :: (json.escape src ++ [.rune '"'])

/-- One entry of the field list `encoding/json` builds from a struct
type: the name of the `json` tag, its `omitempty` option, and the value
of the (string) field in the struct being encoded. -/
structure json.Field where
  name : GoString
  omitEmpty : Bool
  value : GoString

/-- Go `structEncoder.encode`: `next` starts as the opening brace and
becomes a comma once a field has been written; a field with `omitempty`
and an empty value is skipped; each written field is `next`, the quoted
name with its colon, and the encoded value. -/
def json.structEncode : Char → List json.Field → GoString
  | next, [] => if next = '\x7b' then lit "\x7b\x7d" else lit "\x7d"
  | next, f :: fs =>
    if f.omitEmpty && f.value.isEmpty then json.structEncode next fs
    else
      (.rune next :: (lit "\"" ++ f.name ++ lit "\":")) ++ json.appendString f.value
        ++ json.structEncode ',' fs

/-! ## main.go: the log entry -/

/-- Go `type Entry struct` of `main.go`. -/
structure Entry where
  Message : GoString
  Severity : GoString
  Trace : GoString
  Component : GoString

/-- The `json` tags of `Entry`, in declaration order: `message` has no
`omitempty`, the other three have it. -/
def Entry.fields (e : Entry) : List json.Field :=
  [ ⟨lit "message", false, e.Message⟩,
    ⟨lit "severity", true, e.Severity⟩,
    ⟨lit "logging.googleapis.com/trace", true, e.Trace⟩,
    ⟨lit "component", true, e.Component⟩ ]

/-- Go `json.Marshal(e)` for an `Entry`. Its error is always `nil` for a
struct of strings, so only the bytes are returned. -/
def json.Marshal (e : Entry) : GoString :=
  json.structEncode '\x7b' e.fields

/-- Go `func (e Entry) String() string` of `main.go`. The branch for
`err != nil` is never taken, `json.Marshal` having no error for an
`Entry`. -/
def Entry.String (e : Entry) : GoString :=
  let e := if e.Severity = [] then { e with Severity := lit "INFO" } else e
  json.Marshal e

/-- Go `log.Println(e)` with the flags of `init` (`log.SetFlags(0)`): the
bytes written to the standard logger, the operand formatted through its
`String` method and followed by a newline. -/
def log.Println (e : Entry) : GoString :=
  e.String ++ lit "\n"

/-! ## main.go: the handler -/

/-- Go `google.Credentials`, of which the handler reads `ProjectID`. -/
structure google.Credentials where
  ProjectID : GoString

/-- Go `http.Header`. -/
abbrev http.Header := List (GoString × List GoString)

/-- Go `http.Request`, as far as a handler can read it. -/
structure http.Request where
  Method : GoString
  URL : GoString
  Header : http.Header
  Body : GoString

/-- Go `Header.Get(key)` for a key in canonical form, as
`X-Cloud-Trace-Context` is: the first value stored under the key, the
empty string when there is none. -/
def http.Header.Get (h : http.Header) (key : GoString) : GoString :=
  match h.lookup key with
  | some (v :: _) => v
  | _ => []

/-- What a handler has written to its `http.ResponseWriter`. -/
structure http.ResponseWriter where
  header : http.Header
  wroteHeader : Bool
  status : Nat
  body : GoString

/-- The `http.ResponseWriter` the server hands to a handler. -/
def http.ResponseWriter.new : http.ResponseWriter :=
  ⟨[], false, 0, []⟩

/-- Go `Header.Set(key, value)`. -/
def http.Header.Set (h : http.Header) (key value : GoString) : http.Header :=
  (key, [value]) :: h.filter (fun kv => kv.1 ≠ key)

/-- Go `Header.Del(key)`. -/
def http.Header.Del (h : http.Header) (key : GoString) : http.Header :=
  h.filter (fun kv => kv.1 ≠ key)

/-- Go `w.WriteHeader(code)`: only the first call has an effect. -/
def http.ResponseWriter.WriteHeader (w : http.ResponseWriter) (code : Nat) :
    http.ResponseWriter :=
  if w.wroteHeader then w else { w with wroteHeader := true, status := code }

/-- Go `w.Write(data)`: writes status 200 first if no status was written. -/
def http.ResponseWriter.Write (w : http.ResponseWriter) (data : GoString) :
    http.ResponseWriter :=
  let w := w.WriteHeader 200
  { w with body := w.body ++ data }

/-- Go `http.StatusInternalServerError`. -/
def http.StatusInternalServerError : Nat := 500

/-- Go `http.Error(w, error, code)`: sets the plain-text headers, writes
the status, then `fmt.Fprintln(w, error)`, the message and a newline. -/
def http.Error (w : http.ResponseWriter) (error : GoString) (code : Nat) :
    http.ResponseWriter :=
  let h := w.header.Del (lit "Content-Length")
  let h := h.Set (lit "Content-Type") (lit "text/plain; charset=utf-8")
  let h := h.Set (lit "X-Content-Type-Options") (lit "nosniff")
  let w := { w with header := h }
  let w := w.WriteHeader code
  w.Write (error ++ lit "\n")

/-- The local variable `trace` of `handler` after lines 70 to 78; `creds`
is what `google.FindDefaultCredentials` returned (`none` for `nil`). -/
def handler.trace (creds : Option google.Credentials) (r : http.Request) : GoString :=
  match creds with
  | none => []
  | some creds =>
    let traceHeader := r.Header.Get (lit "X-Cloud-Trace-Context")
    let traceParts := strings.Split traceHeader (lit "/")
    match traceParts with
    | [] => []
    | p0 :: _ =>
      if p0.length > 0 then lit "projects/" ++ creds.ProjectID ++ lit "/traces/" ++ p0
      else []

/-- The `Entry` literal that `handler` passes to `log.Println`. -/
def handler.entry (creds : Option google.Credentials) (r : http.Request) : Entry :=
  { Severity := lit "NOTICE",
    Message := lit "This is the default display field.",
    Component := lit "arbitrary-property",
    Trace := handler.trace creds r }

/-- The effects of one call of `handler`: the bytes it made the standard
logger write, and the response writer afterwards. -/
structure handler.Result where
  logged : GoString
  w : http.ResponseWriter

/-- Go `func handler(w http.ResponseWriter, r *http.Request)` of `main.go`;
`creds` is the result of the call of `google.FindDefaultCredentials`. -/
def handler (creds : Option google.Credentials) (w : http.ResponseWriter)
    (r : http.Request) : handler.Result :=
  { logged := log.Println (handler.entry creds r),
    w := http.Error w (lit "Something went wrong") http.StatusInternalServerError }

/-! ## main.go: the server lifecycle -/

/-- A Go `error` value: the sentinel `http.ErrServerClosed`, an error
with a message only, or an error that wraps another one (`Unwrap`). -/
inductive GoError where
  | serverClosed
  | errorString (s : GoString)
  | wrapError (msg : GoString) (err : GoError)
  deriving DecidableEq

/-- Go `http.ErrServerClosed`. -/
def http.ErrServerClosed : GoError := GoError.serverClosed

/-- Go `err.Error()`. -/
def GoError.Error : GoError → GoString
  | .serverClosed => lit "http: Server closed"
  | .errorString s => s
  | .wrapError msg err => msg ++ lit ": " ++ err.Error

/-- The loop of Go `errors.Is` on a non-nil error: compare, then unwrap. -/
def errors.is (target : GoError) : GoError → Bool
  | .wrapError msg err =>
    decide (GoError.wrapError msg err = target) || errors.is target err
  | err => decide (err = target)

/-- Go `errors.Is(err, target)` for a non-nil `target`; `none` is `nil`. -/
def errors.Is (err : Option GoError) (target : GoError) : Bool :=
  match err with
  | none => false
  | some err => errors.is target err

/-- Where the goroutine started by `main` is. -/
inductive main.Goroutine where
  /-- Inside `srv.ListenAndServe()`. -/
  | listening
  /-- Past the `if`, without having called `log.Fatal`. -/
  | returned
  deriving DecidableEq

/-- Where the function `main` itself is. -/
inductive main.Thread where
  /-- Blocked in `<-signalChan`. -/
  | waiting
  /-- Inside `srv.Shutdown(ctx)`. -/
  | shuttingDown
  deriving DecidableEq

/-- The process of `main.go` after `main` has started its goroutine. -/
structure main.State where
  /-- The bytes written by the standard logger. -/
  logged : GoString
  goroutine : main.Goroutine
  thread : main.Thread
  /-- The exit status, once `os.Exit` was called or `main` returned. -/
  exit : Option Nat

/-- What can happen to the process from outside. -/
inductive main.Event where
  /-- The call `srv.ListenAndServe()` returns `err`. -/
  | listenReturned (err : Option GoError)
  /-- SIGINT or SIGTERM arrives on `signalChan`. -/
  | signal
  /-- The call `srv.Shutdown(ctx)` returns `err`. -/
  | shutdownReturned (err : Option GoError)

/-- Lines 25 to 37 of `main`: the port from the environment (`8080` when
`PORT` is unset or empty), and the goroutine has logged that it listens. -/
def main.start (envPort : GoString) : main.State :=
  let port := if envPort = [] then lit "8080" else envPort
  { logged := lit "listening on port " ++ port ++ lit "\n",
    goroutine := .listening, thread := .waiting, exit := none }

/-- The reaction of `main.go` to one event (lines 38 to 48). A process
that has exited does nothing more. `log.Fatal(err)` writes the error and
calls `os.Exit(1)`; `main` returning ends the process with status 0. -/
def main.step (s : main.State) : main.Event → main.State
  | .listenReturned err =>
    if s.exit.isSome || s.goroutine != .listening then s
    else if err != none && errors.Is err http.ErrServerClosed then
      { s with
        logged := s.logged ++ (match err with | some e => e.Error | none => []) ++ lit "\n",
        exit := some 1 }
    else { s with goroutine := .returned }
  | .signal =>
    if s.exit.isSome || s.thread != .waiting then s
    else { s with thread := .shuttingDown }
  | .shutdownReturned err =>
    if s.exit.isSome || s.thread != .shuttingDown then s
    else
      match err with
      | some e =>
        { s with
          logged := s.logged ++ lit "server shutdown failed: " ++ e.Error ++ lit "\n",
          exit := some 0 }
      | none => { s with exit := some 0 }

/-- The process after a sequence of events. -/
def main.run (s : main.State) : List main.Event → main.State
  | [] => s
  | ev :: evs => main.run (main.step s ev) evs

/-! ## Finding a key in encoded output -/

/-- The text that introduces the field `name` in an encoded object: the
quoted name followed by a colon. -/
def keyText (name : String) : GoString :=
  lit "\"" ++ lit name ++ lit "\":"

/-- The encoded text `out` contains the key `name`. -/
def hasKey (name : String) (out : GoString) : Prop :=
  keyText name <:+: out

/-- One step of a scanner that looks for the four elements `a`, `b`,
closing quote, colon in a row. The state counts how many of them have
just been read; `none` means all four were found. -/
def scanStep (a b : GoRune) (s : Fin 4) (r : GoRune) : Option (Fin 4) :=
  if r = a then some 1
  else if s = 1 ∧ r = b then some 2
  else if s = 2 ∧ r = .rune '"' then some 3
  else if s = 3 ∧ r = .rune ':' then none
  else some 0

/-- The scanner run over a text. -/
def scan (a b : GoRune) : Option (Fin 4) → GoString → Option (Fin 4)
  | none, _ => none
  | some s, [] => some s
  | some s, r :: l => scan a b (scanStep a b s r) l

/-! ## Notions used in the properties -/

/-- The separator of the trace header, as one element of a Go string. -/
def slash : GoRune := .rune '/'

/-- The first segment of a header value in the words of the
specification: the part up to the first slash, all of it when there is
no slash. -/
def firstSegment : GoString → GoString
  | [] => []
  | c :: s => if c = slash then [] else c :: firstSegment s

/-- The text of a field with `omitempty` in an encoded entry, after a
first field: nothing when the value is empty, otherwise a comma, the key
and the encoded value. -/
def json.optField (name : String) (v : GoString) : GoString :=
  if v = [] then [] else lit "," ++ keyText name ++ json.appendString v

/-- An element that is an ordinary code point: not a control character
and not the double quote. -/
def Plain (x : GoRune) : Prop :=
  ∃ c, x = .rune c ∧ 0x20 ≤ c.toNat ∧ c ≠ '"'

/-- A text in which the scanner finds nothing, whatever its state at the
start. -/
def Safe (a b : GoRune) (l : GoString) : Prop :=
  ∀ s : Fin 4, scan a b (some s) l ≠ none

/-- A text after which the scanner, whatever its state at the start, has
found nothing and has not just read a closing quote. -/
def Good (a b : GoRune) (l : GoString) : Prop :=
  ∀ s : Fin 4, scan a b (some s) l ≠ none ∧ scan a b (some s) l ≠ some 3

instance (a b : GoRune) (l : GoString) : Decidable (Safe a b l) := by
  unfold Safe; infer_instance

instance (a b : GoRune) (l : GoString) : Decidable (Good a b l) := by
  unfold Good; infer_instance

/-- The element is a code point that is not a control character. -/
def noControl : GoRune → Bool
  | .rune c => decide (0x20 ≤ c.toNat)
  | .stray _ => false

/-- The receiver of `String` after its first statement. -/
def Entry.withSeverity (e : Entry) : Entry :=
  if e.Severity = [] then { e with Severity := lit "INFO" } else e

/-- The name of the trace header. -/
def traceKey : GoString := lit "X-Cloud-Trace-Context"

/-- A project identifier is available, in the words of the
specification: credentials were found and they name a project. -/
def projectAvailable : Option google.Credentials → Bool
  | none => false
  | some c => !c.ProjectID.isEmpty

/-- The trace in the words of the specification, for the credentials
`creds` and the header value `h`: the trace resource when a project
identifier is available and the first segment of `h` is not empty,
otherwise the empty string. -/
def claimedTrace (creds : Option google.Credentials) (h : GoString) : GoString :=
  match creds with
  | none => []
  | some c =>
    if projectAvailable (some c) = true ∧ firstSegment h ≠ [] then
      lit "projects/" ++ c.ProjectID ++ lit "/traces/" ++ firstSegment h
    else []

/-- Credentials that were found but name no project. -/
def noProject : google.Credentials := ⟨[]⟩

/-- A request without headers. -/
def plainRequest : http.Request := ⟨lit "GET", lit "/", [], []⟩

/-- A request that carries the trace header of the specification. -/
def tracedRequest : http.Request :=
  ⟨lit "GET", lit "/", [(traceKey, [lit "abc123/456;o=1"])], []⟩

/-- The error of a listener whose port is taken. -/
def addrInUse : GoError :=
  .wrapError (lit "listen tcp :8080")
    (.wrapError (lit "bind") (.errorString (lit "address already in use")))

/-! ## Properties of `strings.Split` -/

theorem index_slash_none (h : GoString) (hs : slash ∉ h) :
    strings.Index h [slash] = none := by
  induction h with
  | nil => simp [strings.Index]
  | cons c s ih =>
    have hc : slash ≠ c := fun e => hs (by simp [e])
    have hs2 : slash ∉ s := fun e => hs (by simp [e])
    simp [strings.Index, List.isPrefixOf, hc, ih hs2]

theorem index_slash_some (h : GoString) (hs : slash ∈ h) :
    strings.Index h [slash] = some (firstSegment h).length := by
  induction h with
  | nil => simp at hs
  | cons c s ih =>
    by_cases hc : c = slash
    · subst hc
      simp [strings.Index, List.isPrefixOf, firstSegment]
    · have hs2 : slash ∈ s := by
        rcases List.mem_cons.mp hs with e | e
        · exact absurd e.symm hc
        · exact e
      have hc2 : ¬ slash = c := fun e => hc e.symm
      simp [strings.Index, List.isPrefixOf, firstSegment, hc, hc2, ih hs2]

theorem take_length_firstSegment (h : GoString) :
    h.take (firstSegment h).length = firstSegment h := by
  induction h with
  | nil => simp [firstSegment]
  | cons c s ih =>
    by_cases hc : c = slash
    · simp [firstSegment, hc]
    · simp [firstSegment, hc, ih]

theorem firstSegment_eq_self (h : GoString) (hs : slash ∉ h) :
    firstSegment h = h := by
  induction h with
  | nil => simp [firstSegment]
  | cons c s ih =>
    have hc : c ≠ slash := fun e => hs (by simp [e])
    have hs2 : slash ∉ s := fun e => hs (by simp [e])
    simp [firstSegment, hc, ih hs2]

theorem slash_not_mem_firstSegment (h : GoString) : slash ∉ firstSegment h := by
  induction h with
  | nil => simp [firstSegment]
  | cons c s ih =>
    by_cases hc : c = slash
    · simp [firstSegment, hc]
    · have hc2 : ¬ slash = c := fun e => hc e.symm
      simp [firstSegment, hc, hc2, ih]

theorem firstSegment_cut (h : GoString) :
    h = firstSegment h ∨ ∃ tail, h = firstSegment h ++ slash :: tail := by
  induction h with
  | nil => simp [firstSegment]
  | cons c s ih =>
    by_cases hc : c = slash
    · right
      exact ⟨s, by simp [firstSegment, hc]⟩
    · rcases ih with e | ⟨tail, e⟩
      · left
        simp [firstSegment, hc, ← e]
      · right
        exact ⟨tail, by simp [firstSegment, hc, ← e]⟩

theorem index_bound (sep : GoString) :
    ∀ (s : GoString) (m : Nat), strings.Index s sep = some m → m + sep.length ≤ s.length := by
  intro s
  induction s with
  | nil =>
    intro m h
    by_cases hsep : sep = []
    · simp [strings.Index, hsep] at h
      simp [hsep, ← h]
    · simp [strings.Index, hsep] at h
  | cons c s ih =>
    intro m h
    by_cases hp : sep.isPrefixOf (c :: s) = true
    · simp [strings.Index, hp] at h
      have := (List.isPrefixOf_iff_prefix.mp hp).length_le
      omega
    · simp only [strings.Index, hp, Bool.false_eq_true, if_false, Option.map_eq_some'] at h
      obtain ⟨m1, h1, rfl⟩ := h
      have := ih m1 h1
      simp only [List.length_cons]
      omega

/-- The fuel of `strings.countLoop` is enough: any fuel of at least the
length of the string gives the same count. -/
theorem countLoop_fuel (sep : GoString) (hsep : sep ≠ []) :
    ∀ (fuel : Nat) (s : GoString), s.length ≤ fuel →
      strings.countLoop sep fuel s = strings.countLoop sep s.length s := by
  have hlen : 0 < sep.length := List.length_pos.mpr hsep
  intro fuel
  induction fuel using Nat.strong_induction_on with
  | _ fuel ih =>
    intro s hs
    cases fuel with
    | zero =>
      have : s.length = 0 := by omega
      rw [this]
    | succ fuel =>
      cases hi : strings.Index s sep with
      | none =>
        cases hl : s.length <;> simp [strings.countLoop, hi]
      | some m =>
        have hb := index_bound sep s m hi
        obtain ⟨k, hk⟩ : ∃ k, s.length = k + 1 := ⟨s.length - 1, by omega⟩
        have hd : (s.drop (m + sep.length)).length ≤ k := by
          simp only [List.length_drop]
          omega
        rw [hk]
        simp only [strings.countLoop, hi]
        rw [ih fuel (by omega) _ (by omega), ih k (by omega) _ hd]

/-- Go `strings.Count` as its loop computes it: no occurrence gives 0, an
occurrence at `m` gives one more than the count of what follows it. -/
theorem count_eq (s sep : GoString) (hsep : sep ≠ []) :
    strings.Count s sep =
      match strings.Index s sep with
      | none => 0
      | some m => strings.Count (s.drop (m + sep.length)) sep + 1 := by
  have hlen : 0 < sep.length := List.length_pos.mpr hsep
  cases hi : strings.Index s sep with
  | none =>
    cases hl : s.length <;> simp [strings.Count, hsep, strings.countLoop, hi, hl]
  | some m =>
    have hb := index_bound sep s m hi
    obtain ⟨k, hk⟩ : ∃ k, s.length = k + 1 := ⟨s.length - 1, by omega⟩
    have hd : (s.drop (m + sep.length)).length ≤ k := by
      simp only [List.length_drop]
      omega
    simp only [strings.Count, hsep, if_false, hk, strings.countLoop, hi]
    rw [countLoop_fuel sep hsep k _ hd]

/-- Go `strings.Split` for a non-empty separator, as a recursion: a
string without the separator is returned whole, otherwise the text before
the first occurrence is followed by the split of the text after it. -/
theorem split_eq (s sep : GoString) (hsep : sep ≠ []) :
    strings.Split s sep =
      match strings.Index s sep with
      | none => [s]
      | some m => s.take m :: strings.Split (s.drop (m + sep.length)) sep := by
  simp only [strings.Split, hsep, if_false]
  rw [count_eq s sep hsep]
  cases hi : strings.Index s sep with
  | none => simp [strings.genSplitLoop]
  | some m => simp [strings.genSplitLoop, hi]

/-- The first element of `strings.Split(h, "/")` is the first segment. -/
theorem split_slash (h : GoString) :
    ∃ rest, strings.Split h (lit "/") = firstSegment h :: rest := by
  have hl : lit "/" = [slash] := rfl
  rw [hl]
  by_cases hs : slash ∈ h
  · obtain ⟨k, hk⟩ : ∃ k, h.length = k + 1 := by
      cases h with
      | nil => simp at hs
      | cons c s => exact ⟨s.length, rfl⟩
    refine ⟨strings.genSplitLoop [slash]
      (strings.countLoop [slash] k (h.drop ((firstSegment h).length + 1)))
      (h.drop ((firstSegment h).length + 1)), ?_⟩
    simp [strings.Split, strings.Count, hk, strings.countLoop, strings.genSplitLoop,
      index_slash_some h hs, take_length_firstSegment]
  · refine ⟨[], ?_⟩
    have hc : strings.countLoop [slash] h.length h = 0 := by
      cases h.length <;> simp [strings.countLoop, index_slash_none h hs]
    simp [strings.Split, strings.Count, hc, strings.genSplitLoop, firstSegment_eq_self h hs]

/-! ## The shape of an encoded entry -/

/-- The encoded form of an entry, field by field. -/
theorem marshal_eq (e : Entry) :
    json.Marshal e =
      lit "\x7b" ++ keyText "message" ++ json.appendString e.Message
        ++ json.optField "severity" e.Severity
        ++ json.optField "logging.googleapis.com/trace" e.Trace
        ++ json.optField "component" e.Component ++ lit "\x7d" := by
  have h1 : lit "\"" ++ lit "message" ++ lit "\":" = keyText "message" := rfl
  have h2 : lit "\"" ++ lit "severity" ++ lit "\":" = keyText "severity" := rfl
  have h3 : lit "\"" ++ lit "logging.googleapis.com/trace" ++ lit "\":"
      = keyText "logging.googleapis.com/trace" := rfl
  have h4 : lit "\"" ++ lit "component" ++ lit "\":" = keyText "component" := rfl
  have hc : (GoRune.rune ',' :: ([] : GoString)) = lit "," := rfl
  have hb : (GoRune.rune '\x7b' :: ([] : GoString)) = lit "\x7b" := rfl
  cases hS : e.Severity <;> cases hT : e.Trace <;> cases hC : e.Component <;>
    simp [json.Marshal, Entry.fields, json.structEncode, json.optField, hS, hT, hC, h1, h2, h3, h4]
    <;> rfl

/-! ## What the string encoder can write -/

theorem hex_mem (n : Nat) : json.hex n ∈ "0123456789abcdef".data := by
  unfold json.hex
  rcases Nat.lt_or_ge n 16 with h | h
  · interval_cases n <;> decide
  · rw [List.getD_eq_default _ _ (by simpa using h)]
    decide

theorem hex_plain (n : Nat) : 0x20 ≤ (json.hex n).toNat ∧ json.hex n ≠ '"' := by
  have h := hex_mem n
  generalize json.hex n = c at h
  have : ∀ c ∈ "0123456789abcdef".data, 0x20 ≤ c.toNat ∧ c ≠ '"' := by decide
  exact this c h

theorem plain_of_lit_mem (l : List Char) (hl : ∀ c ∈ l, 0x20 ≤ c.toNat ∧ c ≠ '"')
    (x : GoRune) (hx : x ∈ l.map GoRune.rune) : Plain x := by
  obtain ⟨c, hc, rfl⟩ := List.mem_map.mp hx
  exact ⟨c, rfl, hl c hc⟩

/-- What one iteration of the string encoder appends is either one
ordinary code point other than the backslash, or a backslash, one more
code point, and then ordinary code points only. -/
theorem appendRune_cases (r : GoRune) :
    (∃ c, json.appendRune r = [.rune c] ∧ 0x20 ≤ c.toNat ∧ c ≠ '"' ∧ c ≠ '\\') ∨
    (∃ y rest, json.appendRune r = .rune '\\' :: .rune y :: rest ∧ 0x20 ≤ y.toNat ∧
      ∀ x ∈ rest, Plain x) := by
  cases r with
  | stray b =>
    right
    refine ⟨'u', lit "fffd", rfl, by decide, ?_⟩
    exact plain_of_lit_mem _ (by decide)
  | rune c =>
    simp only [json.appendRune]
    by_cases h80 : c.toNat < 0x80
    · rw [if_pos h80]
      by_cases hsafe : json.htmlSafeSet c = true
      · rw [if_pos hsafe]
        left
        simp only [json.htmlSafeSet, Bool.and_eq_true, decide_eq_true_eq, Bool.not_eq_true',
          Bool.or_eq_false_iff, beq_eq_false_iff_ne] at hsafe
        exact ⟨c, rfl, hsafe.1.1, hsafe.2.1.1.1.1, hsafe.2.1.1.1.2⟩
      · rw [if_neg hsafe]
        right
        split_ifs with h1 h2 h3 h4 h5 h6
        · rcases h1 with h1 | h1 <;> subst h1
          · exact ⟨'\\', [], rfl, by decide, by simp⟩
          · exact ⟨'"', [], rfl, by decide, by simp⟩
        · exact ⟨'b', [], rfl, by decide, by simp⟩
        · exact ⟨'f', [], rfl, by decide, by simp⟩
        · exact ⟨'n', [], rfl, by decide, by simp⟩
        · exact ⟨'r', [], rfl, by decide, by simp⟩
        · exact ⟨'t', [], rfl, by decide, by simp⟩
        · refine ⟨'u', [.rune '0', .rune '0', .rune (json.hex (c.toNat / 16)),
            .rune (json.hex (c.toNat % 16))], rfl, by decide, ?_⟩
          intro x hx
          simp only [List.mem_cons, List.mem_singleton, List.not_mem_nil, or_false] at hx
          rcases hx with rfl | rfl | rfl | rfl
          · exact ⟨'0', rfl, by decide⟩
          · exact ⟨'0', rfl, by decide⟩
          · exact ⟨_, rfl, hex_plain _⟩
          · exact ⟨_, rfl, hex_plain _⟩
    · rw [if_neg h80]
      have hge : 0x80 ≤ c.toNat := Nat.le_of_not_lt h80
      split_ifs with h1
      · right
        refine ⟨'u', [.rune '2', .rune '0', .rune '2', .rune (json.hex (c.toNat % 16))],
          rfl, by decide, ?_⟩
        intro x hx
        simp only [List.mem_cons, List.mem_singleton, List.not_mem_nil, or_false] at hx
        rcases hx with rfl | rfl | rfl | rfl
        · exact ⟨'2', rfl, by decide⟩
        · exact ⟨'0', rfl, by decide⟩
        · exact ⟨'2', rfl, by decide⟩
        · exact ⟨_, rfl, hex_plain _⟩
      · left
        refine ⟨c, rfl, by omega, ?_, ?_⟩
        · rintro rfl
          exact absurd hge (by decide)
        · rintro rfl
          exact absurd hge (by decide)

/-! ## The scanner and encoded text -/

theorem scan_none (a b : GoRune) (l : GoString) : scan a b none l = none := by
  cases l <;> rfl

theorem scan_append (a b : GoRune) (s : Option (Fin 4)) (x y : GoString) :
    scan a b s (x ++ y) = scan a b (scan a b s x) y := by
  induction x generalizing s with
  | nil =>
    cases s with
    | none => simp [scan_none]
    | some s => simp [scan]
  | cons r x ih =>
    cases s with
    | none => simp [scan_none]
    | some s => simp [scan, ih]

theorem safe_nil (a b : GoRune) : Safe a b [] := by
  intro s
  simp [scan]

theorem safe_append (a b : GoRune) (x y : GoString) (hx : Safe a b x) (hy : Safe a b y) :
    Safe a b (x ++ y) := by
  intro s
  rw [scan_append]
  cases h : scan a b (some s) x with
  | none => exact absurd h (hx s)
  | some s1 => exact hy s1

/-- A text that contains a needle on which the scanner always succeeds
is not safe. -/
theorem not_infix_of_safe (a b : GoRune) (needle l : GoString)
    (hn : ∀ s : Fin 4, scan a b (some s) needle = none) (hl : Safe a b l) :
    ¬ needle <:+: l := by
  rintro ⟨pre, post, rfl⟩
  apply hl 0
  rw [scan_append, scan_append]
  cases h : scan a b (some 0) pre with
  | none => simp [scan_none]
  | some s1 => rw [hn s1, scan_none]

theorem scanStep_plain (a b : GoRune) (s : Fin 4) (hs : s ≠ 3) (x : GoRune)
    (hx : x ≠ .rune '"') :
    ∃ s1, scanStep a b s x = some s1 ∧ s1 ≠ 3 := by
  unfold scanStep
  split_ifs with h1 h2 h3 h4
  · exact ⟨1, rfl, by decide⟩
  · exact ⟨2, rfl, by decide⟩
  · exact absurd h3.2 hx
  · exact absurd h4.1 hs
  · exact ⟨0, rfl, by decide⟩

theorem scan_plain (a b : GoRune) (l : GoString) (hl : ∀ x ∈ l, Plain x) (s : Fin 4)
    (hs : s ≠ 3) : ∃ s1, scan a b (some s) l = some s1 ∧ s1 ≠ 3 := by
  induction l generalizing s with
  | nil => exact ⟨s, rfl, hs⟩
  | cons x l ih =>
    have hx : x ≠ .rune '"' := by
      obtain ⟨c, rfl, _, hc⟩ := hl x (by simp)
      intro e
      exact hc (GoRune.rune.inj e)
    obtain ⟨s1, h1, hs1⟩ := scanStep_plain a b s hs x hx
    obtain ⟨s2, h2, hs2⟩ := ih (fun y hy => hl y (by simp [hy])) s1 hs1
    exact ⟨s2, by simp [scan, h1, h2], hs2⟩

/-- After a backslash and one more element the scanner has not just read
a closing quote, provided `b` is not the backslash. -/
theorem scan_escaped (a b : GoRune) (hb : b ≠ .rune '\\') (s : Fin 4) (hs : s ≠ 3)
    (y : GoRune) :
    ∃ s1, scan a b (some s) [.rune '\\', y] = some s1 ∧ s1 ≠ 3 := by
  have hb2 : ¬ GoRune.rune '\\' = b := fun e => hb e.symm
  have hq : ¬ GoRune.rune '\\' = GoRune.rune '"' := by decide
  have h1 : ∃ s1, scanStep a b s (.rune '\\') = some s1 ∧ s1 ≠ 2 ∧ s1 ≠ 3 := by
    unfold scanStep
    split_ifs with h1 h2 h3 h4
    · exact ⟨1, rfl, by decide, by decide⟩
    · exact absurd h2.2 hb2
    · exact absurd h3.2 hq
    · exact absurd h4.1 hs
    · exact ⟨0, rfl, by decide, by decide⟩
  obtain ⟨s1, e1, hs12, hs13⟩ := h1
  have h2 : ∃ s2, scanStep a b s1 y = some s2 ∧ s2 ≠ 3 := by
    unfold scanStep
    split_ifs with h1 h2 h3 h4
    · exact ⟨1, rfl, by decide⟩
    · exact ⟨2, rfl, by decide⟩
    · exact absurd h3.1 hs12
    · exact absurd h4.1 hs13
    · exact ⟨0, rfl, by decide⟩
  obtain ⟨s2, e2, hs2⟩ := h2
  exact ⟨s2, by simp [scan, e1, e2], hs2⟩

theorem scan_appendRune (a b : GoRune) (hb : b ≠ .rune '\\') (r : GoRune) (s : Fin 4)
    (hs : s ≠ 3) : ∃ s1, scan a b (some s) (json.appendRune r) = some s1 ∧ s1 ≠ 3 := by
  rcases appendRune_cases r with ⟨c, hr, h20, hq, _⟩ | ⟨y, rest, hr, _, hrest⟩
  · rw [hr]
    exact scan_plain a b _ (by
      intro x hx
      simp only [List.mem_singleton] at hx
      exact ⟨c, hx, h20, hq⟩) s hs
  · rw [hr]
    obtain ⟨s1, h1, hs1⟩ := scan_escaped a b hb s hs (.rune y)
    obtain ⟨s2, h2, hs2⟩ := scan_plain a b rest hrest s1 hs1
    refine ⟨s2, ?_, hs2⟩
    have : (GoRune.rune '\\' :: GoRune.rune y :: rest) = [.rune '\\', .rune y] ++ rest := rfl
    rw [this, scan_append, h1, h2]

theorem scan_escape (a b : GoRune) (hb : b ≠ .rune '\\') (m : GoString) (s : Fin 4)
    (hs : s ≠ 3) : ∃ s1, scan a b (some s) (json.escape m) = some s1 ∧ s1 ≠ 3 := by
  induction m generalizing s with
  | nil => exact ⟨s, rfl, hs⟩
  | cons r m ih =>
    obtain ⟨s1, h1, hs1⟩ := scan_appendRune a b hb r s hs
    obtain ⟨s2, h2, hs2⟩ := ih s1 hs1
    exact ⟨s2, by simp [json.escape, scan_append, h1, h2], hs2⟩

/-- A fixed text that ends with the opening quote of a value, followed
by the encoded value and its closing quote, is safe. -/
theorem safe_value (a b : GoRune) (hb : b ≠ .rune '\\') (p v : GoString)
    (hp : Good a b p) : Safe a b (p ++ (json.escape v ++ [.rune '"'])) := by
  intro s
  rw [scan_append, scan_append]
  cases h : scan a b (some s) p with
  | none => exact absurd h (hp s).1
  | some s1 =>
    have hs1 : s1 ≠ 3 := fun e => (hp s).2 (by rw [h, e])
    obtain ⟨s2, h2, hs2⟩ := scan_escape a b hb v s1 hs1
    rw [h2]
    simp only [scan, scanStep]
    split_ifs with h1 h3 h4 h5 <;> simp_all [scan]

/-! ## Keys of an encoded entry -/

theorem appendString_eq (v : GoString) :
    json.appendString v = lit "\"" ++ (json.escape v ++ [.rune '"']) := rfl

theorem safe_optField (a b : GoRune) (hb : b ≠ .rune '\\') (name : String) (v : GoString)
    (hg : Good a b (lit "," ++ keyText name ++ lit "\"")) :
    Safe a b (json.optField name v) := by
  unfold json.optField
  split_ifs with h
  · exact safe_nil a b
  · rw [appendString_eq, ← List.append_assoc]
    exact safe_value a b hb _ v hg

theorem safe_first (a b : GoRune) (hb : b ≠ .rune '\\') (v : GoString)
    (hg : Good a b (lit "\x7b" ++ keyText "message" ++ lit "\"")) :
    Safe a b (lit "\x7b" ++ keyText "message" ++ json.appendString v) := by
  rw [appendString_eq, ← List.append_assoc]
  exact safe_value a b hb _ v hg

/-- An entry without trace is encoded to a text in which the end of the
trace key does not occur. -/
theorem safe_marshal_trace (e : Entry) (h : e.Trace = []) :
    Safe (.rune 'c') (.rune 'e') (json.Marshal e) := by
  rw [marshal_eq, h]
  have hb : GoRune.rune 'e' ≠ .rune '\\' := by decide
  refine safe_append _ _ _ _ (safe_append _ _ _ _ (safe_append _ _ _ _
    (safe_append _ _ _ _ (safe_first _ _ hb _ (by decide))
      (safe_optField _ _ hb _ _ (by decide))) (safe_nil _ _))
    (safe_optField _ _ hb _ _ (by decide))) (by decide)

/-- An entry without component is encoded to a text in which the end of
the component key does not occur. -/
theorem safe_marshal_component (e : Entry) (h : e.Component = []) :
    Safe (.rune 'n') (.rune 't') (json.Marshal e) := by
  rw [marshal_eq, h]
  have hb : GoRune.rune 't' ≠ .rune '\\' := by decide
  refine safe_append _ _ _ _ (safe_append _ _ _ _ (safe_append _ _ _ _
    (safe_append _ _ _ _ (safe_first _ _ hb _ (by decide))
      (safe_optField _ _ hb _ _ (by decide))) (safe_optField _ _ hb _ _ (by decide)))
    (safe_nil _ _)) (by decide)

theorem hasKey_optField (name : String) (v : GoString) (h : v ≠ []) :
    hasKey name (json.optField name v) := by
  unfold json.optField hasKey
  rw [if_neg h]
  exact ⟨lit ",", json.appendString v, by simp⟩

theorem hasKey_append_left (name : String) (x y : GoString) (h : hasKey name x) :
    hasKey name (x ++ y) := by
  obtain ⟨pre, post, rfl⟩ := h
  exact ⟨pre, post ++ y, by simp⟩

theorem hasKey_append_right (name : String) (x y : GoString) (h : hasKey name y) :
    hasKey name (x ++ y) := by
  obtain ⟨pre, post, rfl⟩ := h
  exact ⟨x ++ pre, post, by simp⟩

theorem hasKey_message_marshal (e : Entry) : hasKey "message" (json.Marshal e) := by
  rw [marshal_eq]
  refine hasKey_append_left _ _ _ (hasKey_append_left _ _ _ (hasKey_append_left _ _ _
    (hasKey_append_left _ _ _ (hasKey_append_left _ _ _ ?_))))
  exact ⟨lit "\x7b", [], by simp⟩

theorem hasKey_severity_marshal (e : Entry) (h : e.Severity ≠ []) :
    hasKey "severity" (json.Marshal e) := by
  rw [marshal_eq]
  exact hasKey_append_left _ _ _ (hasKey_append_left _ _ _ (hasKey_append_left _ _ _
    (hasKey_append_right _ _ _ (hasKey_optField _ _ h))))

/-- The trace key is in the encoded entry, followed by any safe text,
exactly when the trace is not empty. -/
theorem hasKey_trace_marshal (e : Entry) (tail : GoString)
    (ht : Safe (.rune 'c') (.rune 'e') tail) :
    hasKey "logging.googleapis.com/trace" (json.Marshal e ++ tail) ↔ e.Trace ≠ [] := by
  constructor
  · intro hk hT
    exact not_infix_of_safe (.rune 'c') (.rune 'e') _ _ (by decide)
      (safe_append _ _ _ _ (safe_marshal_trace e hT) ht) hk
  · intro hT
    rw [marshal_eq]
    exact hasKey_append_left _ _ _ (hasKey_append_left _ _ _ (hasKey_append_left _ _ _
      (hasKey_append_right _ _ _ (hasKey_optField _ _ hT))))

/-- The component key is in the encoded entry, followed by any safe
text, exactly when the component is not empty. -/
theorem hasKey_component_marshal (e : Entry) (tail : GoString)
    (ht : Safe (.rune 'n') (.rune 't') tail) :
    hasKey "component" (json.Marshal e ++ tail) ↔ e.Component ≠ [] := by
  constructor
  · intro hk hC
    exact not_infix_of_safe (.rune 'n') (.rune 't') _ _ (by decide)
      (safe_append _ _ _ _ (safe_marshal_component e hC) ht) hk
  · intro hC
    rw [marshal_eq]
    exact hasKey_append_left _ _ _ (hasKey_append_left _ _ _
      (hasKey_append_right _ _ _ (hasKey_optField _ _ hC)))

/-! ## Control characters in an encoded entry -/

theorem noControl_of_plain (x : GoRune) (h : Plain x) : noControl x = true := by
  obtain ⟨c, rfl, h20, _⟩ := h
  simp [noControl, h20]

theorem noControl_appendRune (r : GoRune) : ∀ x ∈ json.appendRune r, noControl x = true := by
  rcases appendRune_cases r with ⟨c, hr, h20, _, _⟩ | ⟨y, rest, hr, h20, hrest⟩
  · rw [hr]
    intro x hx
    simp only [List.mem_singleton] at hx
    subst hx
    simp [noControl, h20]
  · rw [hr]
    intro x hx
    simp only [List.mem_cons] at hx
    rcases hx with rfl | rfl | hx
    · decide
    · simp [noControl, h20]
    · exact noControl_of_plain x (hrest x hx)

theorem noControl_escape (m : GoString) : ∀ x ∈ json.escape m, noControl x = true := by
  induction m with
  | nil => simp [json.escape]
  | cons r m ih =>
    intro x hx
    simp only [json.escape, List.mem_append] at hx
    rcases hx with hx | hx
    · exact noControl_appendRune r x hx
    · exact ih x hx

theorem noControl_appendString (m : GoString) :
    ∀ x ∈ json.appendString m, noControl x = true := by
  intro x hx
  simp only [json.appendString, List.mem_cons, List.mem_append, List.not_mem_nil,
    or_false] at hx
  rcases hx with rfl | hx | rfl
  · decide
  · exact noControl_escape m x hx
  · decide

theorem noControl_optField (name : String) (hn : ∀ x ∈ keyText name, noControl x = true)
    (v : GoString) : ∀ x ∈ json.optField name v, noControl x = true := by
  unfold json.optField
  split_ifs with h
  · simp
  · intro x hx
    simp only [List.mem_append] at hx
    rcases hx with (hx | hx) | hx
    · revert x
      decide
    · exact hn x hx
    · exact noControl_appendString v x hx

/-- No element of an encoded entry is a control character. -/
theorem noControl_marshal (e : Entry) : ∀ x ∈ json.Marshal e, noControl x = true := by
  rw [marshal_eq]
  intro x hx
  simp only [List.mem_append] at hx
  rcases hx with (((((hx | hx) | hx) | hx) | hx) | hx) | hx
  · revert x
    decide
  · revert x
    decide
  · exact noControl_appendString _ x hx
  · exact noControl_optField _ (by decide) _ x hx
  · exact noControl_optField _ (by decide) _ x hx
  · exact noControl_optField _ (by decide) _ x hx
  · revert x
    decide

/-! ## The entry as `String` sees it -/

theorem string_eq (e : Entry) : e.String = json.Marshal e.withSeverity := rfl

theorem withSeverity_severity (e : Entry) : e.withSeverity.Severity ≠ [] := by
  unfold Entry.withSeverity
  split_ifs with h
  · simp [lit]
  · exact h

theorem withSeverity_trace (e : Entry) : e.withSeverity.Trace = e.Trace := by
  unfold Entry.withSeverity
  split_ifs <;> rfl

theorem withSeverity_component (e : Entry) : e.withSeverity.Component = e.Component := by
  unfold Entry.withSeverity
  split_ifs <;> rfl

/-! ## The handler -/

theorem get_del (h : http.Header) (key : GoString) : (h.Del key).Get key = [] := by
  have hl : List.lookup key (h.Del key) = none := by
    induction h with
    | nil => rfl
    | cons kv h ih =>
      obtain ⟨k, v⟩ := kv
      by_cases hk : k = key
      · simpa [http.Header.Del, hk] using ih
      · have hk2 : (key == k) = false := by
          simpa using fun e : key = k => hk e.symm
        simpa [http.Header.Del, hk, List.lookup, hk2] using ih
  simp [http.Header.Get, hl]

theorem get_set (h : http.Header) (key v : GoString) : (h.Set key v).Get key = v := by
  simp [http.Header.Get, http.Header.Set, List.lookup]

/-- The value of `trace` in terms of the credentials and the first
segment of the header. -/
theorem trace_eq (creds : Option google.Credentials) (r : http.Request) :
    handler.trace creds r =
      match creds with
      | none => []
      | some c =>
        if firstSegment (r.Header.Get traceKey) = [] then []
        else lit "projects/" ++ c.ProjectID ++ lit "/traces/"
          ++ firstSegment (r.Header.Get traceKey) := by
  cases creds with
  | none => rfl
  | some c =>
    obtain ⟨rest, hsplit⟩ := split_slash (r.Header.Get traceKey)
    have hk : lit "X-Cloud-Trace-Context" = traceKey := rfl
    simp only [handler.trace, hk, hsplit]
    by_cases hf : firstSegment (r.Header.Get traceKey) = []
    · simp [hf]
    · have : 0 < (firstSegment (r.Header.Get traceKey)).length := List.length_pos.mpr hf
      simp [hf, this]

theorem trace_ne_nil (creds : Option google.Credentials) (r : http.Request) :
    handler.trace creds r ≠ [] ↔
      creds ≠ none ∧ firstSegment (r.Header.Get traceKey) ≠ [] := by
  rw [trace_eq]
  cases creds with
  | none => simp
  | some c =>
    by_cases hf : firstSegment (r.Header.Get traceKey) = []
    · simp [hf]
    · simp [hf, lit]

/-- Where the credentials name a project, or none were found, the trace
is the one of the specification. -/
theorem trace_as_claimed (creds : Option google.Credentials) (r : http.Request)
    (hp : ∀ c, creds = some c → c.ProjectID ≠ []) :
    handler.trace creds r = claimedTrace creds (r.Header.Get traceKey) := by
  rw [trace_eq]
  cases creds with
  | none => rfl
  | some c =>
    have hc : c.ProjectID ≠ [] := hp c rfl
    have ha : projectAvailable (some c) = true := by
      cases hid : c.ProjectID with
      | nil => exact absurd hid hc
      | cons x l => simp [projectAvailable, hid]
    by_cases hf : firstSegment (r.Header.Get traceKey) = []
    · simp [claimedTrace, hf]
    · simp [claimedTrace, hf, ha]

theorem logged_eq (creds : Option google.Credentials) (w : http.ResponseWriter)
    (r : http.Request) :
    (handler creds w r).logged = json.Marshal (handler.entry creds r).withSeverity ++ lit "\n" :=
  rfl

theorem hasKey_logged (creds : Option google.Credentials) (w : http.ResponseWriter)
    (r : http.Request) :
    hasKey "logging.googleapis.com/trace" (handler creds w r).logged ↔
      handler.trace creds r ≠ [] := by
  rw [logged_eq, hasKey_trace_marshal _ _ (by decide), withSeverity_trace]
  rfl

/-! ## The server lifecycle -/

/-- While the goroutine is inside `ListenAndServe`, the error it returns
ends the process with status 1 exactly when it is, or wraps,
`http.ErrServerClosed`. -/
theorem listen_fatal_iff (s : main.State) (err : Option GoError) (he : s.exit = none)
    (hg : s.goroutine = .listening) :
    (main.step s (.listenReturned err)).exit = some 1 ↔
      errors.Is err http.ErrServerClosed = true := by
  cases err with
  | none => simp [main.step, he, hg, errors.Is]
  | some e =>
    by_cases h : errors.Is (some e) http.ErrServerClosed = true
    · simp [main.step, he, hg, h]
    · simp [main.step, he, hg, h]

/-- An error returned by `srv.Shutdown` is logged and the process ends
with status 0. -/
theorem shutdown_exit (s : main.State) (err : Option GoError) (he : s.exit = none)
    (ht : s.thread = .shuttingDown) :
    (main.step s (.shutdownReturned err)).exit = some 0 := by
  cases err <;> simp [main.step, he, ht]

/-! ## The claims of the specification -/

/-- C1, as amended: for every request and every result of the credential
lookup, the handler writes status 500 and a body that is the text
`Something went wrong` followed by one newline. -/
theorem handler_status_and_body (creds : Option google.Credentials) (r : http.Request) :
    (handler creds http.ResponseWriter.new r).w.status = 500 ∧
      (handler creds http.ResponseWriter.new r).w.body = lit "Something went wrong\n" :=
  ⟨rfl, rfl⟩

/-- C1, as stated, fails: for a plain GET request the body the handler
writes is not exactly the text `Something went wrong`. -/
theorem handler_body_is_not_bare_text :
    ¬ ((handler none http.ResponseWriter.new plainRequest).w.status = 500 ∧
      (handler none http.ResponseWriter.new plainRequest).w.body
        = lit "Something went wrong") := by
  decide

/-- C2, as amended: when credentials were found, with `p` their project
identifier (which may be empty), and the first segment `t` of the header
is not empty, the trace is `projects/p/traces/t`; without credentials,
or with an empty first segment, the trace is empty. -/
theorem handler_trace_value (creds : Option google.Credentials) (r : http.Request) :
    handler.trace creds r =
      match creds with
      | none => []
      | some c =>
        if firstSegment (r.Header.Get (lit "X-Cloud-Trace-Context")) = [] then []
        else lit "projects/" ++ c.ProjectID ++ lit "/traces/"
          ++ firstSegment (r.Header.Get (lit "X-Cloud-Trace-Context")) :=
  trace_eq creds r

/-- C2 at the header `abc123/456;o=1` and the project `my-proj`. -/
theorem handler_trace_value_witness :
    handler.trace (some ⟨lit "my-proj"⟩) tracedRequest
      = lit "projects/my-proj/traces/abc123" :=
  (handler_trace_value (some ⟨lit "my-proj"⟩) tracedRequest).trans (by decide)

/-- C2, as stated, fails: with credentials that name no project and the
header `abc123/456;o=1` no project identifier is available, yet the trace
is `projects//traces/abc123` and not the empty string of the claim. -/
theorem handler_trace_not_as_claimed :
    projectAvailable (some noProject) = false ∧
      handler.trace (some noProject) tracedRequest = lit "projects//traces/abc123" ∧
      handler.trace (some noProject) tracedRequest
        ≠ claimedTrace (some noProject) (tracedRequest.Header.Get (lit "X-Cloud-Trace-Context")) := by
  decide

/-- C3, as amended: the line the handler logs contains the trace key
exactly when credentials were found (whether or not they name a project)
and the first segment of the trace header is not empty; the key is
missing when the header is absent, when it is empty, and when no
credentials were found. -/
theorem handler_log_trace_key (creds : Option google.Credentials) (w : http.ResponseWriter)
    (r : http.Request) :
    (hasKey "logging.googleapis.com/trace" (handler creds w r).logged ↔
        creds ≠ none ∧ firstSegment (r.Header.Get (lit "X-Cloud-Trace-Context")) ≠ []) ∧
      ¬ hasKey "logging.googleapis.com/trace"
        (handler creds w { r with Header := r.Header.Del (lit "X-Cloud-Trace-Context") }).logged ∧
      ¬ hasKey "logging.googleapis.com/trace"
        (handler creds w { r with Header := r.Header.Set (lit "X-Cloud-Trace-Context") [] }).logged ∧
      ¬ hasKey "logging.googleapis.com/trace" (handler none w r).logged := by
  refine ⟨?_, ?_, ?_, ?_⟩
  · rw [hasKey_logged, trace_ne_nil]
    rfl
  · rw [hasKey_logged, trace_ne_nil]
    simp [traceKey, get_del, firstSegment]
  · rw [hasKey_logged, trace_ne_nil]
    simp [traceKey, get_set, firstSegment]
  · rw [hasKey_logged, trace_ne_nil]
    simp

/-- C3, as stated, fails: with credentials that name no project and the
header `abc123/456;o=1` the logged line contains the trace key, although
no project identifier is available. -/
theorem handler_log_trace_key_not_as_claimed :
    ¬ (hasKey "logging.googleapis.com/trace"
          (handler (some noProject) http.ResponseWriter.new tracedRequest).logged ↔
        projectAvailable (some noProject) = true ∧
          firstSegment (tracedRequest.Header.Get (lit "X-Cloud-Trace-Context")) ≠ []) := by
  intro h
  have hk : hasKey "logging.googleapis.com/trace"
      (handler (some noProject) http.ResponseWriter.new tracedRequest).logged := by
    rw [hasKey_logged]
    decide
  exact absurd (h.mp hk).1 (by decide)

/-- C4: an entry without severity is encoded with the field
`"severity":"INFO"`, whatever its message, trace and component. -/
theorem string_default_severity (e : Entry) (h : e.Severity = []) :
    lit "\"severity\":\"INFO\"" <:+: e.String := by
  have hw : e.withSeverity = { e with Severity := lit "INFO" } := by
    simp [Entry.withSeverity, h]
  have hopt : json.optField "severity" (lit "INFO")
      = lit "," ++ lit "\"severity\":\"INFO\"" := by decide
  rw [string_eq, marshal_eq, hw]
  simp only [hopt]
  exact ⟨lit "\x7b" ++ keyText "message" ++ json.appendString e.Message ++ lit ",",
    json.optField "logging.googleapis.com/trace" e.Trace
      ++ json.optField "component" e.Component ++ lit "\x7d", by simp⟩

/-- C4 at an entry that has a message only. -/
theorem string_default_severity_witness :
    (⟨lit "hello", [], [], []⟩ : Entry).Severity = [] ∧
      lit "\"severity\":\"INFO\"" <:+: (⟨lit "hello", [], [], []⟩ : Entry).String :=
  ⟨rfl, string_default_severity ⟨lit "hello", [], [], []⟩ rfl⟩

/-- C5: the output of `String` always contains the keys `message` and
`severity`, contains the trace key exactly when the trace is not empty,
and contains the key `component` exactly when the component is not
empty. -/
theorem string_keys (e : Entry) :
    hasKey "message" e.String ∧ hasKey "severity" e.String ∧
      (hasKey "logging.googleapis.com/trace" e.String ↔ e.Trace ≠ []) ∧
      (hasKey "component" e.String ↔ e.Component ≠ []) := by
  refine ⟨?_, ?_, ?_, ?_⟩
  · exact hasKey_message_marshal _
  · exact hasKey_severity_marshal _ (withSeverity_severity e)
  · have h := hasKey_trace_marshal e.withSeverity [] (safe_nil _ _)
    rwa [List.append_nil, withSeverity_trace] at h
  · have h := hasKey_component_marshal e.withSeverity [] (safe_nil _ _)
    rwa [List.append_nil, withSeverity_component] at h

/-- C6: what the handler logs is one line, the encoded entry with the
fixed message, severity `NOTICE`, the trace resolved from the header and
the credentials, and the component `arbitrary-property`; only the trace
field varies with the request. -/
theorem handler_logs_one_entry (creds : Option google.Credentials) (w : http.ResponseWriter)
    (r : http.Request) :
    (handler creds w r).logged =
        log.Println ⟨lit "This is the default display field.", lit "NOTICE",
          handler.trace creds r, lit "arbitrary-property"⟩ ∧
      (handler creds w r).logged =
        lit "\x7b\"message\":\"This is the default display field.\",\"severity\":\"NOTICE\""
          ++ json.optField "logging.googleapis.com/trace" (handler.trace creds r)
          ++ lit ",\"component\":\"arbitrary-property\"\x7d\n" ∧
      (handler creds w r).logged.count (.rune '\n') = 1 := by
  refine ⟨rfl, ?_, ?_⟩
  · have hw : (handler.entry creds r).withSeverity = handler.entry creds r := rfl
    have h1 : lit "\x7b" ++ keyText "message"
        ++ json.appendString (lit "This is the default display field.")
        ++ json.optField "severity" (lit "NOTICE")
        = lit "\x7b\"message\":\"This is the default display field.\",\"severity\":\"NOTICE\"" := by
      decide
    have h2 : json.optField "component" (lit "arbitrary-property") ++ lit "\x7d" ++ lit "\n"
        = lit ",\"component\":\"arbitrary-property\"\x7d\n" := by
      decide
    rw [logged_eq, hw, marshal_eq]
    simp only [handler.entry, h1]
    rw [← h2]
    simp
  · rw [logged_eq, List.count_append]
    have h0 : List.count (GoRune.rune '\n') (json.Marshal (handler.entry creds r).withSeverity)
        = 0 := by
      rw [List.count_eq_zero]
      intro hm
      exact absurd (noControl_marshal _ _ hm) (by decide)
    rw [h0]
    decide

/-- C9: the output of `String` is a single line: it contains neither a
line feed nor a carriage return, whatever the fields of the entry hold. -/
theorem string_single_line (e : Entry) :
    GoRune.rune '\n' ∉ e.String ∧ GoRune.rune '\r' ∉ e.String := by
  rw [string_eq]
  constructor
  · intro hm
    exact absurd (noControl_marshal _ _ hm) (by decide)
  · intro hm
    exact absurd (noControl_marshal _ _ hm) (by decide)

/-- C10: splitting any header value on the slash gives at least one
element, and the first element is the part of the value before its first
slash: a prefix without slash that is the whole value or is followed in
it by a slash. -/
theorem split_first_element (h : GoString) :
    ∃ p0 rest, strings.Split h (lit "/") = p0 :: rest ∧ p0 <+: h ∧
      GoRune.rune '/' ∉ p0 ∧ (h = p0 ∨ ∃ tail, h = p0 ++ GoRune.rune '/' :: tail) ∧
      (GoRune.rune '/' ∈ h ∨ p0 = h) := by
  obtain ⟨rest, hsplit⟩ := split_slash h
  refine ⟨firstSegment h, rest, hsplit, ?_, slash_not_mem_firstSegment h, firstSegment_cut h, ?_⟩
  · rcases firstSegment_cut h with e | ⟨tail, e⟩
    · exact ⟨[], by simp [← e]⟩
    · exact ⟨slash :: tail, e.symm⟩
  · by_cases hs : slash ∈ h
    · exact Or.inl hs
    · exact Or.inr (firstSegment_eq_self h hs)

/-- C7 on the code: when the listener cannot bind, the goroutine returns
without logging the error and without ending the process. -/
theorem bind_failure_is_not_fatal :
    errors.Is (some addrInUse) http.ErrServerClosed = false ∧
      (main.run (main.start (lit "8080")) [.listenReturned (some addrInUse)]).exit = none ∧
      (main.run (main.start (lit "8080")) [.listenReturned (some addrInUse)]).logged
        = lit "listening on port 8080\n" := by
  decide

/-- C8 on the code: when `ListenAndServe` returns `http.ErrServerClosed`
after a signal, the goroutine logs it and ends the process with status 1. -/
theorem server_closed_is_fatal :
    (main.run (main.start (lit "8080"))
        [.signal, .listenReturned (some http.ErrServerClosed)]).exit = some 1 ∧
      (main.run (main.start (lit "8080"))
        [.signal, .listenReturned (some http.ErrServerClosed)]).logged
        = lit "listening on port 8080\nhttp: Server closed\n" := by
  decide

end CdSample
